import Mathlib

/-!
Verification of the biblical text search engine of this repository
(`counter_dois.py`, consumed by `painel.py`).

The development shallowly embeds the pure core of the program:

* `normalizar`            — Unicode normalization (NFD, strip combining marks, lowercase)
* `hebraico_para_num`     — additive Hebrew numeral decoding
* `converter_hebraico`    — adapter turning flat Hebrew verse records into books
* `count_in_text`         — per-verse counting (`_count_in_text`, substring / word-boundary)
* `contar_por_livro`      — per-book counts
* `listar_ocorrencias`    — per-verse match listing
* `MAPA_LIVROS` / `fullName` — abbreviation → display-name lookup with `str.upper` fallback

Python dictionaries are embedded as association lists (`lookup1`, `dictSet`,
`dictUpdate`) preserving insertion order and first-key-wins lookup, matching
CPython dict semantics.  The Unicode character data consulted by
`unicodedata.normalize("NFD", ·)`, `unicodedata.category`, `str.lower`,
`str.upper` and the regex word-character class `\w` is embedded as finite
tables restricted to the characters that occur in this development (all other
characters behave as undecomposable, non-combining, case-less, non-word
characters).
-/

/-- First-match association-list lookup: the embedding of Python `dict`
lookup / `dict.get`. -/
def lookup1 {α β : Type} [DecidableEq α] (k : α) : List (α × β) → Option β
  | [] => none
  | (a, b) :: rest => if a = k then some b else lookup1 k rest

/-- Python `d[k] = v`: replace the value of an existing key in place,
otherwise append the new binding (insertion order preserved). -/
def dictSet {α β : Type} [DecidableEq α] (k : α) (v : β) : List (α × β) → List (α × β)
  | [] => [(k, v)]
  | (a, b) :: rest => if a = k then (a, v) :: rest else (a, b) :: dictSet k v rest

/-- `collections.defaultdict` access-and-mutate: apply `f` to the value of
`k` (starting from the default `d` when `k` is absent). -/
def dictUpdate {α β : Type} [DecidableEq α] (k : α) (f : β → β) (d : β) :
    List (α × β) → List (α × β)
  | [] => [(k, f d)]
  | (a, b) :: rest => if a = k then (a, f b) :: rest else (a, b) :: dictUpdate k f d rest

/-! ## Unicode data tables

Finite restriction of the Unicode character database to the characters used
in this development.  `nfdTable` gives the canonical (NFD) decomposition of
the precomposed characters involved; `combiningChars` lists the combining
marks (general category `Mn`); `lowerTable` is the lowercase mapping used by
`str.lower`; `upperTable` the uppercase mapping used by `str.upper`.
Characters outside the tables decompose to themselves, are not combining and
are fixed by case mapping. -/

def nfdTable : List (Char × List Char) :=
  [ ('á', ['a', '́']), ('é', ['e', '́']), ('í', ['i', '́']),
    ('ó', ['o', '́']), ('ú', ['u', '́']),
    ('â', ['a', '̂']), ('ê', ['e', '̂']), ('ô', ['o', '̂']),
    ('ã', ['a', '̃']), ('õ', ['o', '̃']),
    ('ç', ['c', '̧']),
    ('ά', ['α', '́']), ('έ', ['ε', '́']), ('ή', ['η', '́']),
    ('ί', ['ι', '́']), ('ό', ['ο', '́']), ('ύ', ['υ', '́']),
    ('ώ', ['ω', '́']) ]

def combiningChars : List Char :=
  ['̀', '́', '̂', '̃', '̈', '̧', '̓', '̔', 'ͅ']

def lowerTable : List (Char × Char) :=
  [ ('A', 'a'), ('B', 'b'), ('C', 'c'), ('D', 'd'), ('E', 'e'), ('F', 'f'),
    ('G', 'g'), ('H', 'h'), ('I', 'i'), ('J', 'j'), ('K', 'k'), ('L', 'l'),
    ('M', 'm'), ('N', 'n'), ('O', 'o'), ('P', 'p'), ('Q', 'q'), ('R', 'r'),
    ('S', 's'), ('T', 't'), ('U', 'u'), ('V', 'v'), ('W', 'w'), ('X', 'x'),
    ('Y', 'y'), ('Z', 'z') ]

def upperTable : List (Char × Char) :=
  [ ('a', 'A'), ('b', 'B'), ('c', 'C'), ('d', 'D'), ('e', 'E'), ('f', 'F'),
    ('g', 'G'), ('h', 'H'), ('i', 'I'), ('j', 'J'), ('k', 'K'), ('l', 'L'),
    ('m', 'M'), ('n', 'N'), ('o', 'O'), ('p', 'P'), ('q', 'Q'), ('r', 'R'),
    ('s', 'S'), ('t', 'T'), ('u', 'U'), ('v', 'V'), ('w', 'W'), ('x', 'X'),
    ('y', 'Y'), ('z', 'Z'), ('ó', 'Ó'), ('é', 'É'), ('í', 'Í') ]

/-- NFD decomposition of one character. -/
def nfdChar (c : Char) : List Char := (lookup1 c nfdTable).getD [c]

/-- `unicodedata.category ch == "Mn"`. -/
def isCombining (c : Char) : Bool := combiningChars.contains c

/-- One character of `str.lower`. -/
def lowerChar (c : Char) : Char := (lookup1 c lowerTable).getD c

/-- One character of `str.upper`. -/
def upperChar (c : Char) : Char := (lookup1 c upperTable).getD c

/-- The normalization pipeline of `normalizar` on a character list:
NFD-decompose, drop combining marks (`Mn`), lowercase. -/
def normList (l : List Char) : List Char :=
  ((l.flatMap nfdChar).filter (fun c => !isCombining c)).map lowerChar

/-- `normalizar` (counter_dois.py lines 14–20): removes accents/diacritics and
lowercases.  The Python function also maps non-string input to `""`; the
embedding is typed, so only the string branch is modelled. -/
def normalizar (s : String) : String := String.mk (normList s.data)

/-- `str.upper`, character-wise (used by the book-name fallback). -/
def pyUpper (s : String) : String := String.mk (s.data.map upperChar)

/-! ## Search engine -/

/-- The regex word-character class `\w` (letters, digits, underscore),
restricted to the scripts used in this development: ASCII alphanumerics and
underscore, Latin-1 letters, lowercase Greek and Hebrew letters. -/
def isWordChar (c : Char) : Bool :=
  ('a' ≤ c && c ≤ 'z') || ('A' ≤ c && c ≤ 'Z') || ('0' ≤ c && c ≤ '9') || c == '_' ||
  (('à' ≤ c && c ≤ 'ÿ') && c != '÷') || ('α' ≤ c && c ≤ 'ω') ||
  ('א' ≤ c && c ≤ 'ת')

/-- Whether a character list starts with a word character. -/
def headIsWord : List Char → Bool
  | [] => false
  | c :: _ => isWordChar c

/-- Fuel-indexed left-to-right non-overlapping substring scan.  Each step
consumes at least one character of the text, so fuel `length + 1` never
runs out. -/
def countOccsAux (pat : List Char) : Nat → List Char → Nat
  | 0, _ => 0
  | _ + 1, [] => 0
  | fuel + 1, c :: ts =>
    if pat.isPrefixOf (c :: ts) then 1 + countOccsAux pat fuel ((c :: ts).drop pat.length)
    else countOccsAux pat fuel ts

/-- Python `text.count(pat)` for a non-empty pattern: the number of
non-overlapping occurrences of `pat` in `text`, scanning left to right.
The empty pattern is guarded to `0` (its only caller, `count_in_text`,
returns before ever counting an empty pattern). -/
def countOccs (t pat : List Char) : Nat :=
  if pat.isEmpty then 0 else countOccsAux pat (t.length + 1) t

/-- Fuel-indexed scan for the regex `(?<!\w)pat(?!\w)` with `findall`
semantics: a match requires `pat` at the current position with no word
character immediately before (`lastWord` tracks the preceding character)
and none immediately after; after a match the scan resumes at its end. -/
def countExactAux (p : Char) (ps : List Char) : Nat → Bool → List Char → Nat
  | 0, _, _ => 0
  | _ + 1, _, [] => 0
  | fuel + 1, lastWord, c :: ts =>
    if (p :: ps).isPrefixOf (c :: ts) && !lastWord &&
        !headIsWord ((c :: ts).drop (ps.length + 1)) then
      1 + countExactAux p ps fuel (isWordChar (ps.getLastD p)) ((c :: ts).drop (ps.length + 1))
    else countExactAux p ps fuel (isWordChar c) ts

/-- `len(re.findall(rf"(?<!\w){re.escape(pat)}(?!\w)", t))` for a non-empty
pattern (the empty pattern is guarded away by `count_in_text`). -/
def countExact (t pat : List Char) : Nat :=
  match pat with
  | [] => 0
  | p :: ps => countExactAux p ps (t.length + 1) false t

/-- `_count_in_text` (counter_dois.py lines 132–140): empty term counts 0;
mode `"exato"` counts word-boundary-delimited occurrences; every other mode
counts raw substring occurrences. -/
def count_in_text (text_norm term_norm : String) (modo : String) : Nat :=
  if term_norm = "" then 0
  else if modo = "exato" then countExact text_norm.data term_norm.data
  else countOccs text_norm.data term_norm.data

/-- One book of a loaded corpus: the dicts `{"abbrev": ..., "chapters": [[...], ...]}`.
The field `abrev` embeds the `"abbrev"` key (`abbrev` is reserved in Lean). -/
structure Livro where
  abrev : String
  chapters : List (List String)
deriving DecidableEq, Repr

/-- `contar_por_livro` (counter_dois.py lines 143–152): per-book totals over
all chapters and verses, collected into a dict keyed by abbreviation. -/
def contar_por_livro (biblia : List Livro) (termo : String) (modo : String) :
    List (String × Nat) :=
  let term_norm := normalizar termo
  biblia.foldl (fun contagem livro =>
    dictSet livro.abrev
      (livro.chapters.foldl (fun total cap =>
        cap.foldl (fun t vers => t + count_in_text (normalizar vers) term_norm modo) total) 0)
      contagem) []

/-- `listar_ocorrencias` (counter_dois.py lines 158–167): the verses whose
count is positive, as (abbrev, 1-based chapter, 1-based verse, raw text). -/
def listar_ocorrencias (biblia : List Livro) (termo : String) (modo : String) :
    List (String × Nat × Nat × String) :=
  let term_norm := normalizar termo
  biblia.flatMap (fun livro =>
    livro.chapters.enum.flatMap (fun cap =>
      cap.2.enum.filterMap (fun vers =>
        if 0 < count_in_text (normalizar vers.2) term_norm modo then
          some (livro.abrev, cap.1 + 1, vers.1 + 1, vers.2)
        else none)))

/-! ## Book catalog -/

/-- `MAPA_LIVROS` (counter_dois.py lines 39–54): abbreviation → display name. -/
def MAPA_LIVROS : List (String × String) :=
  [ ("gn", "Gênesis"), ("ex", "Êxodo"), ("lv", "Levítico"), ("nm", "Números"),
    ("dt", "Deuteronômio"), ("js", "Josué"), ("jz", "Juízes"), ("rt", "Rute"),
    ("1sm", "1 Samuel"), ("2sm", "2 Samuel"), ("1rs", "1 Reis"), ("2rs", "2 Reis"),
    ("1cr", "1 Crônicas"), ("2cr", "2 Crônicas"), ("ed", "Esdras"), ("ne", "Neemias"),
    ("et", "Ester"), ("jó", "Jó"), ("sl", "Salmos"), ("pv", "Provérbios"),
    ("ec", "Eclesiastes"), ("ct", "Cantares"), ("is", "Isaías"), ("jr", "Jeremias"),
    ("lm", "Lamentações"), ("ez", "Ezequiel"), ("dn", "Daniel"), ("os", "Oséias"),
    ("jl", "Joel"), ("am", "Amós"), ("ob", "Obadias"), ("jn", "Jonas"),
    ("mq", "Miquéias"), ("na", "Naum"), ("hc", "Habacuque"), ("sf", "Sofonias"),
    ("ag", "Ageu"), ("zc", "Zacarias"), ("ml", "Malaquias"),
    ("mt", "Mateus"), ("mc", "Marcos"), ("lc", "Lucas"), ("jo", "João"),
    ("at", "Atos"), ("rm", "Romanos"), ("1co", "1 Coríntios"), ("2co", "2 Coríntios"),
    ("gl", "Gálatas"), ("ef", "Efésios"), ("fp", "Filipenses"), ("cl", "Colossenses"),
    ("1ts", "1 Tessalonicenses"), ("2ts", "2 Tessalonicenses"), ("1tm", "1 Timóteo"),
    ("2tm", "2 Timóteo"), ("tt", "Tito"), ("fm", "Filemom"), ("hb", "Hebreus"),
    ("tg", "Tiago"), ("1pe", "1 Pedro"), ("2pe", "2 Pedro"), ("1jo", "1 João"),
    ("2jo", "2 João"), ("3jo", "3 João"), ("jd", "Judas"), ("ap", "Apocalipse") ]

/-- The display-name lookup `MAPA_LIVROS.get(ab, ab.upper())` performed by
the reporting layer (counter_dois.py line 246, painel.py line 79). -/
def fullName (ab : String) : String := (lookup1 ab MAPA_LIVROS).getD (pyUpper ab)

/-! ## Hebrew numeral decoding -/

/-- `HEB_NUM_VAL` (counter_dois.py lines 79–83). -/
def HEB_NUM_VAL : List (Char × Int) :=
  [ ('א', 1), ('ב', 2), ('ג', 3), ('ד', 4), ('ה', 5), ('ו', 6), ('ז', 7),
    ('ח', 8), ('ט', 9), ('י', 10), ('כ', 20), ('ל', 30), ('מ', 40), ('נ', 50),
    ('ס', 60), ('ע', 70), ('פ', 80), ('צ', 90), ('ק', 100), ('ר', 200),
    ('ש', 300), ('ת', 400) ]

/-- The 22-letter character class of `HEB_NUM_CLEAN_RE` (counter_dois.py
line 84); the regex deletes every character outside it. -/
def hebAlphabet : List Char := "אבגדהוזחטיכלמנסעפצקרשת".data

/-- `hebraico_para_num` (counter_dois.py lines 86–93): strip characters
outside the alphabet, sum the table values of the rest, clamp at 0. -/
def hebraico_para_num (s : String) : Int :=
  max (((s.data.filter (fun c => hebAlphabet.contains c)).map
    (fun c => (lookup1 c HEB_NUM_VAL).getD 0)).sum) 0

/-! ## Hebrew corpus adapter -/

/-- `MAPA_HEB_ABREV` (counter_dois.py lines 63–72). -/
def MAPA_HEB_ABREV : List (String × String) :=
  [ ("בראשית", "gn"), ("שמות", "ex"), ("ויקרא", "lv"), ("במדבר", "nm"), ("דברים", "dt"),
    ("יהושע", "js"), ("שופטים", "jz"), ("רות", "rt"), ("שמואל א", "1sm"), ("שמואל ב", "2sm"),
    ("מלכים א", "1rs"), ("מלכים ב", "2rs"), ("דברי הימים א", "1cr"), ("דברי הימים ב", "2cr"),
    ("עזרא", "ed"), ("נחמיה", "ne"), ("אסתר", "et"), ("איוב", "jó"), ("תהלים", "sl"),
    ("משלי", "pv"), ("קהלת", "ec"), ("שיר השירים", "ct"), ("ישעיהו", "is"), ("ירמיהו", "jr"),
    ("איכה", "lm"), ("יחזקאל", "ez"), ("דניאל", "dn"), ("הושע", "os"), ("יואל", "jl"),
    ("עמוס", "am"), ("עבדיה", "ob"), ("יונה", "jn"), ("מיכה", "mq"), ("נחום", "na"),
    ("חבקוק", "hc"), ("צפניה", "sf"), ("חגי", "ag"), ("זכריה", "zc"), ("מלאכי", "ml") ]

/-- A flat Hebrew verse record `{"book": ..., "chapter": ..., "content": ...}`. -/
structure VersoHeb where
  book : String
  chapter : String
  content : String
deriving DecidableEq, Repr

/-- One iteration of the loop in `converter_hebraico`: skip records with an
unrecognized book name or a chapter decoding to 0, otherwise append the
content to `livros[abrev][cap]` (nested defaultdicts). -/
def addVerse (livros : List (String × List (Int × List String))) (v : VersoHeb) :
    List (String × List (Int × List String)) :=
  match lookup1 v.book MAPA_HEB_ABREV with
  | none => livros
  | some abrev =>
    let cap := hebraico_para_num v.chapter
    if cap ≤ 0 then livros
    else dictUpdate abrev (fun caps => dictUpdate cap (fun vs => vs ++ [v.content]) [] caps)
      [] livros

/-- `converter_hebraico` (counter_dois.py lines 109–125): group the records,
then emit each book's chapters in ascending chapter-number order
(`[caps[c] for c in sorted(caps)]`). -/
def converter_hebraico (versos : List VersoHeb) : List Livro :=
  let livros := versos.foldl addVerse []
  livros.map (fun p =>
    ⟨p.1, (List.insertionSort (fun a b => a.1 ≤ b.1) p.2).map Prod.snd⟩)

/-- The (book abbreviation, decoded chapter) key under which
`converter_hebraico` files a record, `none` when the record is dropped. -/
def rkey (v : VersoHeb) : Option (String × Int) :=
  match lookup1 v.book MAPA_HEB_ABREV with
  | none => none
  | some abrev =>
    let cap := hebraico_para_num v.chapter
    if cap ≤ 0 then none else some (abrev, cap)

/-- The contents of the records filed under (`ab`, `c`), in record order. -/
def versesOf (versos : List VersoHeb) (ab : String) (c : Int) : List String :=
  (versos.filter (fun v => decide (rkey v = some (ab, c)))).map VersoHeb.content

/-! ## Spec-side tokenization (for the exact-mode claim)

The spec describes exact mode as counting the tokens — maximal runs of word
characters — equal to the normalized term.  `tokens` is that spec-side
definition, to be compared with the source's boundary-regex semantics. -/

/-- One `foldr` step of the tokenizer: a word character either starts a new
token or extends the token the suffix started with; a non-word character
closes any run. -/
def tokenStep (c : Char) (st : List (List Char) × Bool) : List (List Char) × Bool :=
  if isWordChar c then
    match st with
    | ([], _) => ([[c]], true)
    | (tok :: rest, headWord) =>
      if headWord then ((c :: tok) :: rest, true) else ([c] :: tok :: rest, true)
  else (st.1, false)

/-- Spec-side tokenizer: the maximal runs of word characters of a text, in
order.  The second state component records whether the processed suffix
starts with a word character. -/
def tokens (t : List Char) : List (List Char) := (t.foldr tokenStep ([], false)).1

/-! ## Auxiliary definitions for the verification -/

/-- A character left untouched by the whole normalization pipeline. -/
def fixedChar (d : Char) : Prop :=
  nfdChar d = [d] ∧ isCombining d = false ∧ lowerChar d = d

instance (d : Char) : Decidable (fixedChar d) := by
  unfold fixedChar
  exact inferInstance

/-- Invariant of the grouping loop of `converter_hebraico`: after processing
the records `ps`, the accumulator is keyed by the books seen so far, each
book maps chapter numbers to the contents filed under them in record order,
and a book/chapter pair is present exactly when some processed record was
valid for it. -/
def ConvInv (acc : List (String × List (Int × List String))) (ps : List VersoHeb) : Prop :=
  (acc.map Prod.fst).Nodup ∧
  (∀ ab caps, lookup1 ab acc = some caps →
    (caps.map Prod.fst).Nodup ∧ caps ≠ [] ∧
    (∀ c ls, lookup1 c caps = some ls →
      ls = versesOf ps ab c ∧ ∃ v ∈ ps, rkey v = some (ab, c)) ∧
    (∀ c, (∃ v ∈ ps, rkey v = some (ab, c)) → ∃ ls, lookup1 c caps = some ls)) ∧
  (∀ ab, lookup1 ab acc = none → ∀ v ∈ ps, ∀ c, rkey v ≠ some (ab, c))

/-- A small concrete corpus used to instantiate the theorems. -/
def demoCorpus : List Livro :=
  [⟨"gn", [["o amor ama"], ["o amado ama"]]⟩, ⟨"ex", [["a cama"]]⟩]

/-- Concrete flat Hebrew verse records: chapter "ב" (2) arrives before
chapter "א" (1). -/
def exVersos : List VersoHeb :=
  [⟨"בראשית", "ב", "v2"⟩, ⟨"בראשית", "א", "v1"⟩]

/-! ## Association-list lemmas -/

theorem lookup1_mem {α β : Type} [DecidableEq α] {k : α} {b : β} {l : List (α × β)}
    (h : lookup1 k l = some b) : (k, b) ∈ l := by
  induction l with
  | nil => simp [lookup1] at h
  | cons p rest ih =>
    obtain ⟨a, v⟩ := p
    by_cases ha : a = k
    · subst ha
      simp [lookup1] at h
      simp [h]
    · simp only [lookup1, if_neg ha] at h
      exact List.mem_cons_of_mem _ (ih h)

theorem mem_lookup1 {α β : Type} [DecidableEq α] {k : α} {b : β} {l : List (α × β)}
    (hnd : (l.map Prod.fst).Nodup) (hm : (k, b) ∈ l) : lookup1 k l = some b := by
  induction l with
  | nil => cases hm
  | cons p rest ih =>
    obtain ⟨a, v⟩ := p
    rcases List.mem_cons.mp hm with heq | hmem
    · injection heq with h1 h2
      subst h1; subst h2
      simp [lookup1]
    · have ha : a ≠ k := by
        intro hh
        subst hh
        exact (List.nodup_cons.mp (by simpa using hnd)).1
          (List.mem_map_of_mem Prod.fst hmem)
      simp only [lookup1, if_neg ha]
      exact ih (by simpa using (List.nodup_cons.mp (by simpa using hnd)).2) hmem

theorem lookup1_eq_none_iff {α β : Type} [DecidableEq α] {k : α} {l : List (α × β)} :
    lookup1 k l = none ↔ k ∉ l.map Prod.fst := by
  induction l with
  | nil => simp [lookup1]
  | cons p rest ih =>
    obtain ⟨a, v⟩ := p
    by_cases ha : a = k
    · subst ha; simp [lookup1]
    · have ha2 : ¬k = a := fun hh => ha hh.symm
      simp [lookup1, ha, ih, ha2]

theorem lookup1_dictSet_self {α β : Type} [DecidableEq α] (k : α) (v : β)
    (l : List (α × β)) : lookup1 k (dictSet k v l) = some v := by
  induction l with
  | nil => simp [dictSet, lookup1]
  | cons p rest ih =>
    obtain ⟨a, b⟩ := p
    by_cases ha : a = k <;> simp [dictSet, lookup1, ha, ih]

theorem lookup1_dictSet_ne {α β : Type} [DecidableEq α] {k' k : α} (h : k' ≠ k) (v : β)
    (l : List (α × β)) : lookup1 k' (dictSet k v l) = lookup1 k' l := by
  have hkk : ¬k = k' := fun hh => h hh.symm
  induction l with
  | nil => simp [dictSet, lookup1, hkk]
  | cons p rest ih =>
    obtain ⟨a, b⟩ := p
    by_cases ha : a = k
    · subst ha
      simp [dictSet, lookup1, hkk]
    · simp [dictSet, lookup1, ha, ih]

theorem lookup1_foldl_dictSet_not_mem {α β γ : Type} [DecidableEq α]
    (key : γ → α) (val : γ → β) (l : List γ) (k : α) (hk : k ∉ l.map key)
    (acc : List (α × β)) :
    lookup1 k (l.foldl (fun acc x => dictSet (key x) (val x) acc) acc) = lookup1 k acc := by
  induction l generalizing acc with
  | nil => rfl
  | cons y ys ih =>
    simp only [List.map_cons, List.mem_cons, not_or] at hk
    rw [List.foldl_cons, ih hk.2]
    exact lookup1_dictSet_ne hk.1 _ _

theorem lookup1_foldl_dictSet {α β γ : Type} [DecidableEq α]
    (key : γ → α) (val : γ → β) (l : List γ) (hnd : (l.map key).Nodup)
    (x : γ) (hx : x ∈ l) (acc : List (α × β)) :
    lookup1 (key x) (l.foldl (fun acc x => dictSet (key x) (val x) acc) acc) =
      some (val x) := by
  induction l generalizing acc with
  | nil => cases hx
  | cons y ys ih =>
    simp only [List.map_cons, List.nodup_cons] at hnd
    rw [List.foldl_cons]
    rcases List.mem_cons.mp hx with rfl | hmem
    · rw [lookup1_foldl_dictSet_not_mem key val ys (key x) hnd.1]
      exact lookup1_dictSet_self _ _ _
    · exact ih hnd.2 hmem _

theorem mem_foldl_dictSet {α β γ : Type} [DecidableEq α]
    (key : γ → α) (val : γ → β) (l : List γ) (acc : List (α × β))
    (hacc : ∀ p ∈ acc, ∃ x, p.2 = val x) :
    ∀ p ∈ l.foldl (fun acc x => dictSet (key x) (val x) acc) acc, ∃ x, p.2 = val x := by
  induction l generalizing acc with
  | nil => exact hacc
  | cons y ys ih =>
    rw [List.foldl_cons]
    refine ih _ ?_
    intro p hp
    have hmem : p = (key y, val y) ∨ p ∈ acc := by
      clear hacc ih
      induction acc with
      | nil => simpa [dictSet] using hp
      | cons q rest ihq =>
        obtain ⟨a, b⟩ := q
        by_cases ha : a = key y
        · subst ha
          rcases List.mem_cons.mp (by simpa [dictSet] using hp) with h | h
          · exact Or.inl (by simp [h])
          · exact Or.inr (List.mem_cons_of_mem _ h)
        · rcases List.mem_cons.mp (by simpa [dictSet, ha] using hp) with h | h
          · exact Or.inr (by simp [h])
          · rcases ihq h with h' | h'
            · exact Or.inl h'
            · exact Or.inr (List.mem_cons_of_mem _ h')
    rcases hmem with rfl | hmemacc
    · exact ⟨y, rfl⟩
    · exact hacc p hmemacc

/-! ## Sum lemmas for the counting loops -/

theorem foldl_add_map_sum {γ : Type} (f : γ → Nat) (l : List γ) (n : Nat) :
    l.foldl (fun t x => t + f x) n = n + (l.map f).sum := by
  induction l generalizing n with
  | nil => simp
  | cons y ys ih => simp [List.foldl_cons, ih, Nat.add_assoc]

theorem livro_total_eq_sum (livro : Livro) (tn modo : String) :
    livro.chapters.foldl (fun total cap =>
        cap.foldl (fun t vers => t + count_in_text (normalizar vers) tn modo) total) 0 =
      ((livro.chapters.map (fun cap =>
        (cap.map (fun vers => count_in_text (normalizar vers) tn modo)).sum)).sum) := by
  have h : ∀ (cap : List String) (t : Nat),
      cap.foldl (fun t vers => t + count_in_text (normalizar vers) tn modo) t =
        t + (cap.map (fun vers => count_in_text (normalizar vers) tn modo)).sum :=
    fun cap t => foldl_add_map_sum _ cap t
  calc livro.chapters.foldl (fun total cap =>
        cap.foldl (fun t vers => t + count_in_text (normalizar vers) tn modo) total) 0
      = livro.chapters.foldl (fun total cap =>
          total + (cap.map (fun vers => count_in_text (normalizar vers) tn modo)).sum) 0 := by
        congr 1
        funext total cap
        exact h cap total
    _ = _ := by
        rw [foldl_add_map_sum]
        simp

theorem contar_por_livro_lookup (biblia : List Livro) (termo modo : String) (livro : Livro)
    (hnd : (biblia.map Livro.abrev).Nodup) (hmem : livro ∈ biblia) :
    lookup1 livro.abrev (contar_por_livro biblia termo modo) =
      some ((livro.chapters.map (fun cap =>
        (cap.map (fun vers =>
          count_in_text (normalizar vers) (normalizar termo) modo)).sum)).sum) := by
  unfold contar_por_livro
  rw [lookup1_foldl_dictSet Livro.abrev
    (fun livro => livro.chapters.foldl (fun total cap =>
      cap.foldl (fun t vers =>
        t + count_in_text (normalizar vers) (normalizar termo) modo) total) 0)
    biblia hnd livro hmem []]
  rw [livro_total_eq_sum]

/-! ## Mode selection lemmas for `count_in_text` -/

theorem count_in_text_substring_eq (t p : String) :
    count_in_text t p "substring" = countOccs t.data p.data := by
  by_cases hp : p = ""
  · subst hp
    simp [count_in_text, countOccs]
  · unfold count_in_text
    rw [if_neg hp, if_neg (by decide : ¬("substring" = "exato"))]

theorem count_in_text_not_exato {modo : String} (h : modo ≠ "exato") (t p : String) :
    count_in_text t p modo = count_in_text t p "substring" := by
  unfold count_in_text
  by_cases hp : p = ""
  · simp [hp]
  · rw [if_neg hp, if_neg hp, if_neg h, if_neg (by decide : ¬("substring" = "exato"))]

/-- C1: in mode "substring", `contar_por_livro` gives each book a count equal
to the sum, over all verses of all chapters of that book, of the number of
non-overlapping occurrences of the normalized term as a substring of the
normalized verse text.  The corpus is well-formed in the data-model sense:
one entry per book (distinct abbreviations). -/
theorem contar_por_livro_substring_correct (biblia : List Livro) (termo : String)
    (livro : Livro) (hnd : (biblia.map Livro.abrev).Nodup) (hmem : livro ∈ biblia) :
    lookup1 livro.abrev (contar_por_livro biblia termo "substring") =
      some ((livro.chapters.map (fun cap =>
        (cap.map (fun vers =>
          countOccs (normalizar vers).data (normalizar termo).data)).sum)).sum) := by
  rw [contar_por_livro_lookup biblia termo "substring" livro hnd hmem]
  simp only [count_in_text_substring_eq]

/-- Witness for C1 at a concrete corpus and term. -/
theorem contar_por_livro_substring_correct_witness :
    lookup1 "gn" (contar_por_livro demoCorpus "ama" "substring") = some 3 := by
  have h := contar_por_livro_substring_correct demoCorpus "ama"
    ⟨"gn", [["o amor ama"], ["o amado ama"]]⟩ (by decide) (by decide)
  exact h.trans (by decide)

/-- C10: any mode other than "exato" — in particular the tag "frase" passed
by the dashboard — selects substring semantics: both `contar_por_livro` and
`listar_ocorrencias` agree with mode "substring"; no mode value is rejected. -/
theorem modo_fallback_substring (biblia : List Livro) (termo modo : String)
    (h : modo ≠ "exato") :
    contar_por_livro biblia termo modo = contar_por_livro biblia termo "substring" ∧
    listar_ocorrencias biblia termo modo = listar_ocorrencias biblia termo "substring" := by
  constructor
  · unfold contar_por_livro
    simp only [count_in_text_not_exato h]
  · unfold listar_ocorrencias
    simp only [count_in_text_not_exato h]

/-- Witness for C10 with the dashboard's mode "frase". -/
theorem modo_fallback_substring_witness :
    contar_por_livro demoCorpus "ama" "frase" = contar_por_livro demoCorpus "ama" "substring" ∧
    listar_ocorrencias demoCorpus "ama" "frase" = listar_ocorrencias demoCorpus "ama" "substring" :=
  modo_fallback_substring demoCorpus "ama" "frase" (by decide)

/-- Counterexample to C4 as stated: the whitespace-only term " " is not
guarded and matches in substring mode (normalization keeps the space), so the
count for "gn" is 4, not 0. -/
theorem contar_whitespace_counterexample :
    lookup1 "gn" (contar_por_livro demoCorpus " " "substring") = some 4 ∧ (4 : Nat) ≠ 0 :=
  ⟨by decide, by decide⟩

/-- C4 amended: only a term whose normalization is the empty string is
guarded; for such a term `contar_por_livro` returns 0 for every book in the
corpus, in every mode.  (A whitespace-only term does not normalize to the
empty string and can match, as the counterexample shows.) -/
theorem contar_norm_empty_zero (biblia : List Livro) (termo modo : String)
    (h : normalizar termo = "") (ab : String) (n : Nat)
    (hl : lookup1 ab (contar_por_livro biblia termo modo) = some n) : n = 0 := by
  have hp := lookup1_mem hl
  unfold contar_por_livro at hp
  have hx := mem_foldl_dictSet Livro.abrev
    (fun livro => livro.chapters.foldl (fun total cap =>
      cap.foldl (fun t vers =>
        t + count_in_text (normalizar vers) (normalizar termo) modo) total) 0)
    biblia [] (by simp) (ab, n) hp
  obtain ⟨x, hx⟩ := hx
  have : n = (ab, n).2 := rfl
  rw [this, hx]
  simp only [livro_total_eq_sum, h]
  simp [count_in_text]

/-- Witness for the amended C4 at a concrete corpus and the empty term. -/
theorem contar_norm_empty_zero_witness : (0 : Nat) = 0 :=
  contar_norm_empty_zero demoCorpus "" "substring" rfl "gn" 0 (by decide)

/-- Counterexample to C3 as stated: `normalizar` does not fold the Greek
final sigma, so the spec's example equality fails on the code. -/
theorem normalizar_sigma_counterexample :
    normalizar "λόγος" ≠ normalizar "λογοσ" := by decide

/-- C3 amended: `normalizar` strips combining marks and lowercases but keeps
the final sigma (U+03C2) distinct from the medial sigma (U+03C3): the two
example strings normalize to distinct outputs. -/
theorem normalizar_sigma_amended :
    normalizar "λόγος" = "λογος" ∧ normalizar "λογοσ" = "λογοσ" ∧
      ("λογος" : String) ≠ "λογοσ" :=
  ⟨by decide, by decide, by decide⟩

/-- Counterexample to C8 as stated: for verse "o amor ama" and term "ama",
substring mode counts 1, not 2 ("amor" does not contain "ama"). -/
theorem count_modes_example_counterexample :
    count_in_text (normalizar "o amor ama") (normalizar "ama") "substring" ≠ 2 := by
  decide

/-- C8 amended: for the verse "o amor ama" and the term "ama", substring mode
counts 1 and exact mode counts 1. -/
theorem count_modes_example_amended :
    count_in_text (normalizar "o amor ama") (normalizar "ama") "substring" = 1 ∧
    count_in_text (normalizar "o amor ama") (normalizar "ama") "exato" = 1 :=
  ⟨by decide, by decide⟩

/-- Counterexample to C9 as stated: an unknown abbreviation is not returned
unchanged — the fallback upper-cases it. -/
theorem fullName_counterexample : fullName "xyz" ≠ "xyz" := by decide

/-- C9 amended: `fullName` maps a known canonical abbreviation to its display
name, and an abbreviation absent from the table to its upper-cased form
(never raising — the lookup is total). -/
theorem fullName_lookup_or_upper :
    (∀ ab nome, lookup1 ab MAPA_LIVROS = some nome → fullName ab = nome) ∧
    (∀ ab, lookup1 ab MAPA_LIVROS = none → fullName ab = pyUpper ab) := by
  constructor
  · intro ab nome h
    simp [fullName, h]
  · intro ab h
    simp [fullName, h]

/-- Witness for the amended C9 at a known and an unknown abbreviation. -/
theorem fullName_lookup_or_upper_witness :
    fullName "gn" = "Gênesis" ∧ fullName "xyz" = "XYZ" :=
  ⟨fullName_lookup_or_upper.1 "gn" "Gênesis" (by decide),
   (fullName_lookup_or_upper.2 "xyz" (by decide)).trans (by decide)⟩

/-- C6: `hebraico_para_num` strips characters outside the 22-letter alphabet
(equivalently, characters outside the value table contribute 0) and returns
the additive sum of the letter values; the result is never negative, and the
spec's examples hold. -/
theorem hebraico_para_num_correct :
    (∀ s : String, 0 ≤ hebraico_para_num s ∧
      hebraico_para_num s =
        (s.data.map (fun c => (lookup1 c HEB_NUM_VAL).getD 0)).sum) ∧
    hebraico_para_num "יא" = 11 ∧ hebraico_para_num "א" = 1 ∧
    hebraico_para_num "" = 0 := by
  have hval0 : ∀ c : Char, c ∉ hebAlphabet →
      (lookup1 c HEB_NUM_VAL).getD 0 = 0 := by
    intro c hc
    cases hl : lookup1 c HEB_NUM_VAL with
    | none => rfl
    | some v =>
      have hall : ∀ p ∈ HEB_NUM_VAL, p.1 ∈ hebAlphabet := by decide
      exact absurd (hall (c, v) (lookup1_mem hl)) hc
  have hfilter : ∀ l : List Char,
      ((l.filter (fun c => hebAlphabet.contains c)).map
        (fun c => (lookup1 c HEB_NUM_VAL).getD 0)).sum =
      (l.map (fun c => (lookup1 c HEB_NUM_VAL).getD 0)).sum := by
    intro l
    induction l with
    | nil => rfl
    | cons c cs ih =>
      by_cases hc : c ∈ hebAlphabet
      · simpa [List.filter_cons, hc] using ih
      · simpa [List.filter_cons, hc, hval0 c hc] using ih
  have hnonneg : ∀ l : List Char,
      0 ≤ (l.map (fun c => (lookup1 c HEB_NUM_VAL).getD 0)).sum := by
    intro l
    apply List.sum_nonneg
    intro x hx
    obtain ⟨c, _, rfl⟩ := List.mem_map.mp hx
    cases hl : lookup1 c HEB_NUM_VAL with
    | none => simp
    | some v =>
      have hall : ∀ p ∈ HEB_NUM_VAL, 0 ≤ p.2 := by decide
      have := hall (c, v) (lookup1_mem hl)
      simpa [hl] using this
  refine ⟨?_, by decide, by decide, by decide⟩
  intro s
  have heq : hebraico_para_num s =
      (s.data.map (fun c => (lookup1 c HEB_NUM_VAL).getD 0)).sum := by
    unfold hebraico_para_num
    rw [hfilter]
    exact max_eq_left (hnonneg s.data)
  exact ⟨heq ▸ hnonneg s.data, heq⟩

/-! ## Idempotence of normalization -/

theorem normList_append (a b : List Char) :
    normList (a ++ b) = normList a ++ normList b := by
  simp [normList]

theorem mem_normList {d : Char} {l : List Char} (hd : d ∈ normList l) :
    ∃ c ∈ l, d ∈ normList [c] := by
  induction l with
  | nil => simp [normList] at hd
  | cons c cs ih =>
    have hsplit : normList (c :: cs) = normList [c] ++ normList cs := by
      simpa using normList_append [c] cs
    rw [hsplit] at hd
    rcases List.mem_append.mp hd with h | h
    · exact ⟨c, List.mem_cons_self c cs, h⟩
    · obtain ⟨c', hc', hdc'⟩ := ih h
      exact ⟨c', List.mem_cons_of_mem _ hc', hdc'⟩

theorem fixedChar_of_mem_normList_single (c : Char) :
    ∀ d ∈ normList [c], fixedChar d := by
  intro d hd
  have hl : normList [c] = ((nfdChar c).filter (fun x => !isCombining x)).map lowerChar := by
    simp [normList]
  rw [hl] at hd
  cases hn : lookup1 c nfdTable with
  | some ds =>
    have hall : ∀ p ∈ nfdTable,
        ∀ d ∈ ((p.2.filter (fun x => !isCombining x)).map lowerChar), fixedChar d := by
      decide
    have hnfd : nfdChar c = ds := by simp [nfdChar, hn]
    rw [hnfd] at hd
    exact hall (c, ds) (lookup1_mem hn) d hd
  | none =>
    have hnfd : nfdChar c = [c] := by simp [nfdChar, hn]
    rw [hnfd] at hd
    cases hcomb : isCombining c with
    | true => simp [hcomb] at hd
    | false =>
      simp [hcomb] at hd
      cases hlo : lookup1 c lowerTable with
      | some u =>
        have hall : ∀ p ∈ lowerTable, fixedChar p.2 := by decide
        have hlc : lowerChar c = u := by simp [lowerChar, hlo]
        rw [hd, hlc]
        exact hall (c, u) (lookup1_mem hlo)
      | none =>
        have hlc : lowerChar c = c := by simp [lowerChar, hlo]
        rw [hd, hlc]
        exact ⟨hnfd, hcomb, hlc⟩

theorem normList_fixed {l : List Char} (h : ∀ d ∈ l, fixedChar d) : normList l = l := by
  induction l with
  | nil => rfl
  | cons d ds ih =>
    obtain ⟨h1, h2, h3⟩ := h d (List.mem_cons_self d ds)
    have hsplit : normList (d :: ds) = normList [d] ++ normList ds := by
      simpa using normList_append [d] ds
    rw [hsplit]
    have hsingle : normList [d] = [d] := by
      simp [normList, h1, h2, h3]
    rw [hsingle, ih (fun x hx => h x (List.mem_cons_of_mem _ hx))]
    rfl

/-- C7: `normalizar` is deterministic (it is a function) and idempotent. -/
theorem normalizar_idempotent (s : String) :
    normalizar (normalizar s) = normalizar s := by
  unfold normalizar
  apply congrArg String.mk
  show normList (String.mk (normList s.data)).data = normList s.data
  apply normList_fixed
  intro d hd
  obtain ⟨c, _, hdc⟩ := mem_normList hd
  exact fixedChar_of_mem_normList_single c d hdc

/-! ## Exact mode versus spec-side tokenization -/

theorem tokenStep_snd (c : Char) (st : List (List Char) × Bool) :
    (tokenStep c st).2 = isWordChar c := by
  obtain ⟨toks, hw⟩ := st
  cases hc : isWordChar c with
  | false => simp [tokenStep, hc]
  | true =>
    cases toks with
    | nil => simp [tokenStep, hc]
    | cons tok rest => cases hw <;> simp [tokenStep, hc]

theorem foldr_tokenStep_snd (t : List Char) :
    (t.foldr tokenStep ([], false)).2 = headIsWord t := by
  cases t with
  | nil => rfl
  | cons c ts =>
    rw [List.foldr_cons]
    exact tokenStep_snd c _

theorem foldr_tokenStep_all_word (pat : List Char) (hne : pat ≠ [])
    (hall : ∀ c ∈ pat, isWordChar c = true) (toks : List (List Char)) :
    pat.foldr tokenStep (toks, false) = (pat :: toks, true) := by
  induction pat with
  | nil => cases hne rfl
  | cons c cs ih =>
    have hc : isWordChar c = true := hall c (List.mem_cons_self c cs)
    cases cs with
    | nil => cases toks <;> simp [tokenStep, hc]
    | cons c2 cs2 =>
      have hcs : (c2 :: cs2).foldr tokenStep (toks, false) = ((c2 :: cs2) :: toks, true) :=
        ih (by simp) (fun x hx => hall x (List.mem_cons_of_mem _ hx))
      rw [List.foldr_cons, hcs]
      simp [tokenStep, hc]

theorem tokens_all_word_append (pat r : List Char) (hne : pat ≠ [])
    (hall : ∀ c ∈ pat, isWordChar c = true) (hr : headIsWord r = false) :
    tokens (pat ++ r) = pat :: tokens r := by
  have h2 : (r.foldr tokenStep ([], false)).2 = false := by
    rw [foldr_tokenStep_snd, hr]
  unfold tokens
  rw [List.foldr_append]
  rcases hfr : r.foldr tokenStep ([], false) with ⟨toksr, hw⟩
  rw [hfr] at h2
  simp only [] at h2
  subst h2
  rw [foldr_tokenStep_all_word pat hne hall toksr]

theorem tokens_cons_not_word {c : Char} (ts : List Char) (hc : isWordChar c = false) :
    tokens (c :: ts) = tokens ts := by
  unfold tokens
  rw [List.foldr_cons]
  simp [tokenStep, hc]

theorem headIsWord_dropWhile (t : List Char) :
    headIsWord (t.dropWhile isWordChar) = false := by
  induction t with
  | nil => rfl
  | cons c ts ih =>
    rw [List.dropWhile_cons]
    cases hc : isWordChar c with
    | true => simpa [hc] using ih
    | false => simp [hc, headIsWord]

theorem dropWhile_of_head_not_word {r : List Char} (hr : headIsWord r = false) :
    r.dropWhile isWordChar = r := by
  cases r with
  | nil => rfl
  | cons c ts =>
    have hc : isWordChar c = false := hr
    rw [List.dropWhile_cons]
    simp [hc]

theorem tokens_head_word (t : List Char) (ht : headIsWord t = true) :
    tokens t = (t.takeWhile isWordChar) :: tokens (t.dropWhile isWordChar) := by
  obtain ⟨c, ts, rfl⟩ : ∃ c ts, t = c :: ts := by
    cases t with
    | nil => simp [headIsWord] at ht
    | cons c ts => exact ⟨c, ts, rfl⟩
  have hc : isWordChar c = true := ht
  have hne : (c :: ts).takeWhile isWordChar ≠ [] := by
    rw [List.takeWhile_cons]
    simp [hc]
  conv_lhs => rw [← List.takeWhile_append_dropWhile isWordChar (c :: ts)]
  exact tokens_all_word_append _ _ hne (fun x hx => List.mem_takeWhile_imp hx)
    (headIsWord_dropWhile _)

theorem countExactAux_eq_count_tokens (p : Char) (ps : List Char)
    (hall : ∀ c ∈ p :: ps, isWordChar c = true) :
    ∀ (fuel : Nat) (t : List Char), t.length < fuel → ∀ lw : Bool,
      countExactAux p ps fuel lw t =
        (tokens (cond lw (t.dropWhile isWordChar) t)).count (p :: ps) := by
  intro fuel
  induction fuel with
  | zero => intro t ht lw; exact absurd ht (Nat.not_lt_zero _)
  | succ n ih =>
    intro t ht lw
    cases t with
    | nil => cases lw <;> simp [countExactAux, tokens]
    | cons c ts =>
      have htl : ts.length < n := by
        simp only [List.length_cons] at ht
        omega
      by_cases hcond : ((p :: ps).isPrefixOf (c :: ts) && !lw &&
          !headIsWord ((c :: ts).drop (ps.length + 1))) = true
      · obtain ⟨⟨hpre, hlw⟩, haft⟩ : ((p :: ps).isPrefixOf (c :: ts) = true ∧ !lw = true) ∧
            !headIsWord ((c :: ts).drop (ps.length + 1)) = true := by
          simpa [Bool.and_eq_true] using hcond
        have hlw' : lw = false := by simpa using hlw
        subst hlw'
        obtain ⟨r, hr⟩ := List.isPrefixOf_iff_prefix.mp hpre
        have hlen1 : ps.length + 1 = (p :: ps).length := by simp
        have hdrop : (c :: ts).drop (ps.length + 1) = r := by
          calc (c :: ts).drop (ps.length + 1)
              = ((p :: ps) ++ r).drop (ps.length + 1) := by rw [hr]
            _ = r := by rw [hlen1, List.drop_left]
        have haft' : headIsWord r = false := by
          rw [hdrop] at haft
          simpa using haft
        have hrlen : r.length < n := by
          have hlr := congrArg List.length hr
          simp only [List.length_append, List.length_cons] at hlr
          omega
        simp only [countExactAux, if_pos hcond]
        rw [hdrop, hall _ (List.getLastD_mem_cons ps p), ih r hrlen true, Bool.cond_true,
          dropWhile_of_head_not_word haft', Bool.cond_false]
        have htoks : tokens (c :: ts) = (p :: ps) :: tokens r := by
          rw [← hr]
          exact tokens_all_word_append (p :: ps) r (by simp) hall haft'
        rw [htoks, List.count_cons]
        simp
        omega
      · simp only [countExactAux, if_neg hcond]
        rw [ih ts htl (isWordChar c)]
        cases hc : isWordChar c with
        | false =>
          have hdc : (c :: ts).dropWhile isWordChar = c :: ts := by
            rw [List.dropWhile_cons]
            simp [hc]
          have htc : tokens (c :: ts) = tokens ts := tokens_cons_not_word ts hc
          cases lw <;> simp [hdc, htc]
        | true =>
          have hdc : (c :: ts).dropWhile isWordChar = ts.dropWhile isWordChar := by
            rw [List.dropWhile_cons]
            simp [hc]
          cases lw with
          | true => simp [hdc]
          | false =>
            have hhead : headIsWord (c :: ts) = true := hc
            rw [Bool.cond_true, Bool.cond_false, tokens_head_word (c :: ts) hhead, hdc,
              List.count_cons]
            have hrun : (c :: ts).takeWhile isWordChar ≠ (p :: ps) := by
              intro heq
              apply hcond
              have hsplit := List.takeWhile_append_dropWhile isWordChar (c :: ts)
              rw [heq] at hsplit
              have hpre : (p :: ps).isPrefixOf (c :: ts) = true := by
                rw [List.isPrefixOf_iff_prefix]
                exact ⟨_, hsplit⟩
              have hlen1 : ps.length + 1 = (p :: ps).length := by simp
              have hdrop2 : (c :: ts).drop (ps.length + 1) = (c :: ts).dropWhile isWordChar := by
                calc (c :: ts).drop (ps.length + 1)
                    = ((p :: ps) ++ (c :: ts).dropWhile isWordChar).drop (ps.length + 1) := by
                      rw [hsplit]
                  _ = (c :: ts).dropWhile isWordChar := by rw [hlen1, List.drop_left]
              simp [hpre, hdrop2, headIsWord_dropWhile]
            have hbeq : ((c :: ts).takeWhile isWordChar == (p :: ps)) = false := by
              rw [beq_eq_false_iff_ne]
              exact hrun
            simp [hbeq]

theorem countExact_eq_count_tokens (t pat : List Char) (hne : pat ≠ [])
    (hall : ∀ c ∈ pat, isWordChar c = true) :
    countExact t pat = (tokens t).count pat := by
  cases pat with
  | nil => cases hne rfl
  | cons p ps =>
    have h := countExactAux_eq_count_tokens p ps hall (t.length + 1) t (by omega) false
    rw [Bool.cond_false] at h
    exact h

theorem string_data_eq_nil {s : String} (h : s.data = []) : s = "" := by
  cases s with
  | mk d =>
    have hd : d = [] := h
    subst hd
    rfl

/-- Counterexample to C2 as stated: for a term containing a space the exact
mode counts a boundary-delimited substring occurrence (1 for term "o amor" in
verse "o amor ama") while the number of tokens equal to the term is 0. -/
theorem contar_exato_tokens_counterexample :
    lookup1 "gn" (contar_por_livro [⟨"gn", [["o amor ama"]]⟩] "o amor" "exato") = some 1 ∧
    (tokens (normalizar "o amor ama").data).count (normalizar "o amor").data = 0 ∧
    (1 : Nat) ≠ 0 :=
  ⟨by decide, by decide, by decide⟩

/-- C2 amended: in exact mode the per-verse count equals the number of tokens
(maximal runs of word characters) of the normalized verse text exactly equal
to the normalized term, summed per book — provided the normalized term is
non-empty and consists only of word characters.  (For terms containing
non-word characters such as spaces, the code's boundary-regex count can
exceed the token count, as the counterexample shows.) -/
theorem contar_por_livro_exato_tokens (biblia : List Livro) (termo : String)
    (livro : Livro) (hnd : (biblia.map Livro.abrev).Nodup) (hmem : livro ∈ biblia)
    (hterm : normalizar termo ≠ "")
    (hword : ∀ c ∈ (normalizar termo).data, isWordChar c = true) :
    lookup1 livro.abrev (contar_por_livro biblia termo "exato") =
      some ((livro.chapters.map (fun cap =>
        (cap.map (fun vers =>
          (tokens (normalizar vers).data).count (normalizar termo).data)).sum)).sum) := by
  rw [contar_por_livro_lookup biblia termo "exato" livro hnd hmem]
  have hdata : (normalizar termo).data ≠ [] := fun hh => hterm (string_data_eq_nil hh)
  have hcit : ∀ t : String, count_in_text t (normalizar termo) "exato" =
      (tokens t.data).count (normalizar termo).data := by
    intro t
    unfold count_in_text
    rw [if_neg hterm, if_pos rfl]
    exact countExact_eq_count_tokens t.data (normalizar termo).data hdata hword
  simp only [hcit]

/-- Witness for the amended C2 at a concrete corpus and all-word term. -/
theorem contar_por_livro_exato_tokens_witness :
    lookup1 "gn" (contar_por_livro demoCorpus "ama" "exato") = some 2 := by
  have h := contar_por_livro_exato_tokens demoCorpus "ama"
    ⟨"gn", [["o amor ama"], ["o amado ama"]]⟩ (by decide) (by decide) (by decide) (by decide)
  exact h.trans (by decide)

/-! ## dictUpdate lemmas -/

theorem dictUpdate_ne_nil {α β : Type} [DecidableEq α] (k : α) (f : β → β) (d : β)
    (l : List (α × β)) : dictUpdate k f d l ≠ [] := by
  cases l with
  | nil => simp [dictUpdate]
  | cons p rest =>
    obtain ⟨a, b⟩ := p
    by_cases ha : a = k <;> simp [dictUpdate, ha]

theorem lookup1_dictUpdate_self {α β : Type} [DecidableEq α] (k : α) (f : β → β) (d : β)
    (l : List (α × β)) :
    lookup1 k (dictUpdate k f d l) = some (f ((lookup1 k l).getD d)) := by
  induction l with
  | nil => simp [dictUpdate, lookup1]
  | cons p rest ih =>
    obtain ⟨a, b⟩ := p
    by_cases ha : a = k
    · subst ha
      simp [dictUpdate, lookup1]
    · simp [dictUpdate, lookup1, ha, ih]

theorem lookup1_dictUpdate_ne {α β : Type} [DecidableEq α] {k' k : α} (h : k' ≠ k)
    (f : β → β) (d : β) (l : List (α × β)) :
    lookup1 k' (dictUpdate k f d l) = lookup1 k' l := by
  have hkk : ¬k = k' := fun hh => h hh.symm
  induction l with
  | nil => simp [dictUpdate, lookup1, hkk]
  | cons p rest ih =>
    obtain ⟨a, b⟩ := p
    by_cases ha : a = k
    · subst ha
      simp [dictUpdate, lookup1, hkk]
    · simp [dictUpdate, lookup1, ha, ih]

theorem keys_dictUpdate {α β : Type} [DecidableEq α] (k : α) (f : β → β) (d : β)
    (l : List (α × β)) :
    (dictUpdate k f d l).map Prod.fst =
      if k ∈ l.map Prod.fst then l.map Prod.fst else l.map Prod.fst ++ [k] := by
  induction l with
  | nil => simp [dictUpdate]
  | cons p rest ih =>
    obtain ⟨a, b⟩ := p
    by_cases ha : a = k
    · subst ha
      simp [dictUpdate]
    · have ha2 : ¬k = a := fun hh => ha hh.symm
      by_cases hm : k ∈ rest.map Prod.fst <;> simp [dictUpdate, ha, ha2, hm, ih]

theorem keys_nodup_dictUpdate {α β : Type} [DecidableEq α] {k : α} {f : β → β} {d : β}
    {l : List (α × β)} (h : (l.map Prod.fst).Nodup) :
    ((dictUpdate k f d l).map Prod.fst).Nodup := by
  rw [keys_dictUpdate]
  by_cases hm : k ∈ l.map Prod.fst
  · simpa [hm] using h
  · simp only [hm, if_false]
    simp [List.nodup_append, h, hm]

/-! ## The grouping invariant of `converter_hebraico` -/

theorem versesOf_append_single (ps : List VersoHeb) (v : VersoHeb) (ab : String) (c : Int) :
    versesOf (ps ++ [v]) ab c =
      versesOf ps ab c ++ (if rkey v = some (ab, c) then [v.content] else []) := by
  unfold versesOf
  rw [List.filter_append, List.map_append]
  by_cases hr : rkey v = some (ab, c) <;> simp [List.filter_cons, hr]

theorem versesOf_eq_nil (ps : List VersoHeb) (ab : String) (c : Int)
    (h : ∀ v ∈ ps, rkey v ≠ some (ab, c)) : versesOf ps ab c = [] := by
  unfold versesOf
  have hf : ps.filter (fun v => decide (rkey v = some (ab, c))) = [] := by
    rw [List.filter_eq_nil_iff]
    intro a ha
    simpa using h a ha
  rw [hf]
  rfl

theorem addVerse_of_rkey_none {acc : List (String × List (Int × List String))}
    {v : VersoHeb} (h : rkey v = none) : addVerse acc v = acc := by
  unfold addVerse
  unfold rkey at h
  cases hl : lookup1 v.book MAPA_HEB_ABREV with
  | none => rfl
  | some ab =>
    rw [hl] at h
    by_cases hc : hebraico_para_num v.chapter ≤ 0
    · simp [hc]
    · simp [hc] at h

theorem addVerse_of_rkey_some {acc : List (String × List (Int × List String))}
    {v : VersoHeb} {ab : String} {c : Int} (h : rkey v = some (ab, c)) :
    addVerse acc v =
      dictUpdate ab (fun caps => dictUpdate c (fun vs => vs ++ [v.content]) [] caps)
        [] acc := by
  unfold addVerse
  unfold rkey at h
  cases hl : lookup1 v.book MAPA_HEB_ABREV with
  | none =>
    rw [hl] at h
    cases h
  | some ab' =>
    rw [hl] at h
    by_cases hc : hebraico_para_num v.chapter ≤ 0
    · simp [hc] at h
    · simp [hc] at h
      obtain ⟨h1, h2⟩ := h
      subst h1
      subst h2
      simp [hc]

theorem ConvInv_nil : ConvInv [] [] := by
  refine ⟨List.nodup_nil, ?_, ?_⟩
  · intro ab caps h
    simp [lookup1] at h
  · intro ab _ v hv
    cases hv

theorem ConvInv_step {acc : List (String × List (Int × List String))} {ps : List VersoHeb}
    (hInv : ConvInv acc ps) (v : VersoHeb) : ConvInv (addVerse acc v) (ps ++ [v]) := by
  obtain ⟨hnd, hsome, hnone⟩ := hInv
  cases hr : rkey v with
  | none =>
    rw [addVerse_of_rkey_none hr]
    refine ⟨hnd, ?_, ?_⟩
    · intro ab caps hl
      obtain ⟨n1, n2, n3, n4⟩ := hsome ab caps hl
      refine ⟨n1, n2, ?_, ?_⟩
      · intro c ls hls
        obtain ⟨e1, v', hv', hrv'⟩ := n3 c ls hls
        refine ⟨?_, v', List.mem_append_left _ hv', hrv'⟩
        rw [versesOf_append_single, if_neg (by rw [hr]; simp), e1]
        simp
      · rintro c ⟨v', hv', hrv'⟩
        rcases List.mem_append.mp hv' with hv'' | hv''
        · exact n4 c ⟨v', hv'', hrv'⟩
        · have hveq : v' = v := by simpa using hv''
          subst hveq
          rw [hr] at hrv'
          cases hrv'
    · intro ab hl v' hv' c
      rcases List.mem_append.mp hv' with hv'' | hv''
      · exact hnone ab hl v' hv'' c
      · have hveq : v' = v := by simpa using hv''
        subst hveq
        rw [hr]
        simp
  | some key =>
    obtain ⟨ab0, c0⟩ := key
    rw [addVerse_of_rkey_some hr]
    refine ⟨keys_nodup_dictUpdate hnd, ?_, ?_⟩
    · intro ab caps hl
      by_cases hab : ab = ab0
      · subst hab
        rw [lookup1_dictUpdate_self] at hl
        injection hl with hl
        cases hold : lookup1 ab acc with
        | none =>
          rw [hold, Option.getD_none] at hl
          subst hl
          refine ⟨by simp [dictUpdate], by simp [dictUpdate], ?_, ?_⟩
          · intro c ls hls
            by_cases hc : c0 = c
            · subst hc
              simp [dictUpdate, lookup1] at hls
              refine ⟨?_, v, List.mem_append_right _ (by simp), hr⟩
              rw [versesOf_append_single,
                versesOf_eq_nil ps ab c0 (fun v' hv' => hnone ab hold v' hv' c0),
                if_pos hr]
              simp [hls]
            · simp [dictUpdate, lookup1, hc] at hls
          · rintro c ⟨v', hv', hrv'⟩
            rcases List.mem_append.mp hv' with hv'' | hv''
            · exact absurd hrv' (hnone ab hold v' hv'' c)
            · have hveq : v' = v := by simpa using hv''
              rw [hveq, hr] at hrv'
              have hcc : c = c0 := by
                injection hrv' with hrv2
                exact (congrArg Prod.snd hrv2).symm
              subst hcc
              exact ⟨[v.content], by simp [dictUpdate, lookup1]⟩
        | some oldCaps =>
          rw [hold, Option.getD_some] at hl
          subst hl
          obtain ⟨n1, n2, n3, n4⟩ := hsome ab oldCaps hold
          refine ⟨keys_nodup_dictUpdate n1, dictUpdate_ne_nil _ _ _ _, ?_, ?_⟩
          · intro c ls hls
            by_cases hc : c = c0
            · subst hc
              rw [lookup1_dictUpdate_self] at hls
              injection hls with hls
              cases hold2 : lookup1 c oldCaps with
              | none =>
                rw [hold2, Option.getD_none] at hls
                have hverses : versesOf ps ab c = [] := by
                  apply versesOf_eq_nil
                  intro v' hv' hrv'
                  obtain ⟨ls0, hls0⟩ := n4 c ⟨v', hv', hrv'⟩
                  rw [hold2] at hls0
                  cases hls0
                refine ⟨?_, v, List.mem_append_right _ (by simp), hr⟩
                rw [versesOf_append_single, hverses, if_pos hr]
                simpa using hls.symm
              | some ls0 =>
                rw [hold2, Option.getD_some] at hls
                obtain ⟨e1, v', hv', hrv'⟩ := n3 c ls0 hold2
                refine ⟨?_, v', List.mem_append_left _ hv', hrv'⟩
                rw [versesOf_append_single, if_pos hr, ← e1]
                exact hls.symm
            · rw [lookup1_dictUpdate_ne hc] at hls
              obtain ⟨e1, v', hv', hrv'⟩ := n3 c ls hls
              refine ⟨?_, v', List.mem_append_left _ hv', hrv'⟩
              have hne : rkey v ≠ some (ab, c) := by
                rw [hr]
                intro hh
                injection hh with hh2
                exact hc (congrArg Prod.snd hh2).symm
              rw [versesOf_append_single, if_neg hne, e1]
              simp
          · rintro c ⟨v', hv', hrv'⟩
            by_cases hc : c = c0
            · subst hc
              exact ⟨_, lookup1_dictUpdate_self _ _ _ _⟩
            · rw [lookup1_dictUpdate_ne hc]
              rcases List.mem_append.mp hv' with hv'' | hv''
              · exact n4 c ⟨v', hv'', hrv'⟩
              · have hveq : v' = v := by simpa using hv''
                subst hveq
                rw [hr] at hrv'
                injection hrv' with hrv2
                exact absurd (congrArg Prod.snd hrv2).symm hc
      · rw [lookup1_dictUpdate_ne hab] at hl
        obtain ⟨n1, n2, n3, n4⟩ := hsome ab caps hl
        have habr : ∀ c : Int, rkey v ≠ some (ab, c) := by
          intro c hh
          rw [hr] at hh
          injection hh with hh2
          exact hab (congrArg Prod.fst hh2).symm
        refine ⟨n1, n2, ?_, ?_⟩
        · intro c ls hls
          obtain ⟨e1, v', hv', hrv'⟩ := n3 c ls hls
          refine ⟨?_, v', List.mem_append_left _ hv', hrv'⟩
          rw [versesOf_append_single, if_neg (habr c), e1]
          simp
        · rintro c ⟨v', hv', hrv'⟩
          rcases List.mem_append.mp hv' with hv'' | hv''
          · exact n4 c ⟨v', hv'', hrv'⟩
          · have hveq : v' = v := by simpa using hv''
            subst hveq
            exact absurd hrv' (habr c)
    · intro ab hl
      have hab : ab ≠ ab0 := by
        intro hh
        subst hh
        rw [lookup1_dictUpdate_self] at hl
        cases hl
      rw [lookup1_dictUpdate_ne hab] at hl
      intro v' hv' c
      rcases List.mem_append.mp hv' with hv'' | hv''
      · exact hnone ab hl v' hv'' c
      · have hveq : v' = v := by simpa using hv''
        subst hveq
        rw [hr]
        intro hh
        injection hh with hh2
        exact hab (congrArg Prod.fst hh2).symm

theorem ConvInv_foldl (versos : List VersoHeb) :
    ∀ acc ps, ConvInv acc ps → ConvInv (versos.foldl addVerse acc) (ps ++ versos) := by
  induction versos with
  | nil =>
    intro acc ps h
    simpa using h
  | cons v vs ih =>
    intro acc ps h
    rw [List.foldl_cons]
    have h2 := ih (addVerse acc v) (ps ++ [v]) (ConvInv_step h v)
    simpa [List.append_assoc] using h2

theorem ConvInv_converter (versos : List VersoHeb) :
    ConvInv (versos.foldl addVerse []) versos := by
  have h := ConvInv_foldl versos [] [] ConvInv_nil
  simpa using h

/-- C5: for every list of flat Hebrew verse records, `converter_hebraico`
drops each record whose book name is absent from the Hebrew-name table or
whose chapter label decodes to 0 (`rkey` is `none`), groups the remaining
verses by (book, chapter) preserving per-chapter record order (`versesOf`),
and emits each book's chapters sorted by strictly ascending chapter number
regardless of arrival order; a book appears in the output exactly when some
record is valid for it. -/
theorem converter_hebraico_correct (versos : List VersoHeb) :
    (∀ livro, livro ∈ converter_hebraico versos →
      ∃ cs : List Int, cs.Pairwise (· < ·) ∧
        (∀ c, c ∈ cs ↔ ∃ v ∈ versos, rkey v = some (livro.abrev, c)) ∧
        livro.chapters = cs.map (versesOf versos livro.abrev)) ∧
    (∀ ab, (∃ livro ∈ converter_hebraico versos, livro.abrev = ab) ↔
      ∃ v ∈ versos, ∃ c, rkey v = some (ab, c)) := by
  obtain ⟨hnd, hsome, hnone⟩ := ConvInv_converter versos
  haveI htot : IsTotal (Int × List String) (fun a b => a.1 ≤ b.1) :=
    ⟨fun a b => le_total a.1 b.1⟩
  haveI htr : IsTrans (Int × List String) (fun a b => a.1 ≤ b.1) :=
    ⟨fun a b c h1 h2 => le_trans h1 h2⟩
  constructor
  · intro livro hm
    unfold converter_hebraico at hm
    simp only [List.mem_map] at hm
    obtain ⟨⟨ab, caps⟩, hpmem, rfl⟩ := hm
    have hl : lookup1 ab (versos.foldl addVerse []) = some caps := mem_lookup1 hnd hpmem
    obtain ⟨n1, n2, n3, n4⟩ := hsome ab caps hl
    have hperm := List.perm_insertionSort (fun a b : Int × List String => a.1 ≤ b.1) caps
    have hsorted := List.sorted_insertionSort (fun a b : Int × List String => a.1 ≤ b.1) caps
    refine ⟨(List.insertionSort (fun a b => a.1 ≤ b.1) caps).map Prod.fst, ?_, ?_, ?_⟩
    · have hple : ((List.insertionSort (fun a b : Int × List String => a.1 ≤ b.1) caps).map
          Prod.fst).Pairwise (· ≤ ·) :=
        hsorted.map Prod.fst (fun a b hab => hab)
    
      have hnodup : ((List.insertionSort (fun a b : Int × List String => a.1 ≤ b.1) caps).map
          Prod.fst).Nodup :=
        (hperm.map Prod.fst).nodup_iff.mpr n1
      exact (hple.and hnodup).imp (fun hab => lt_of_le_of_ne hab.1 hab.2)
    · intro c
      constructor
      · intro hc
        simp only [List.mem_map] at hc
        obtain ⟨⟨c', ls⟩, hmemq, rfl⟩ := hc
        have hmem2 : (c', ls) ∈ caps := hperm.mem_iff.mp hmemq
        have hls : lookup1 c' caps = some ls := mem_lookup1 n1 hmem2
        obtain ⟨e1, v', hv', hrv'⟩ := n3 c' ls hls
        exact ⟨v', hv', hrv'⟩
      · rintro ⟨v', hv', hrv'⟩
        obtain ⟨ls, hls⟩ := n4 c ⟨v', hv', hrv'⟩
        have hmem2 : (c, ls) ∈ caps := lookup1_mem hls
        have hmem3 : (c, ls) ∈ List.insertionSort (fun a b : Int × List String => a.1 ≤ b.1) caps :=
          hperm.mem_iff.mpr hmem2
        exact List.mem_map_of_mem Prod.fst hmem3
    · show (List.insertionSort (fun a b : Int × List String => a.1 ≤ b.1) caps).map Prod.snd =
        ((List.insertionSort (fun a b : Int × List String => a.1 ≤ b.1) caps).map Prod.fst).map
          (versesOf versos ab)
      rw [List.map_map]
      apply List.map_congr_left
      intro q hq
      have hq2 : (q.1, q.2) ∈ caps := by
        rw [Prod.mk.eta]
        exact hperm.mem_iff.mp hq
      have hlq : lookup1 q.1 caps = some q.2 := mem_lookup1 n1 hq2
      obtain ⟨e1, _⟩ := n3 q.1 q.2 hlq
      exact e1
  · intro ab
    constructor
    · rintro ⟨livro, hm, rfl⟩
      unfold converter_hebraico at hm
      simp only [List.mem_map] at hm
      obtain ⟨⟨ab', caps⟩, hpmem, rfl⟩ := hm
      have hl : lookup1 ab' (versos.foldl addVerse []) = some caps := mem_lookup1 hnd hpmem
      obtain ⟨n1, n2, n3, n4⟩ := hsome ab' caps hl
      obtain ⟨q, qs, rfl⟩ := List.exists_cons_of_ne_nil n2
      have hq2 : (q.1, q.2) ∈ q :: qs := by
        rw [Prod.mk.eta]
        exact List.mem_cons_self q qs
      have hlq : lookup1 q.1 (q :: qs) = some q.2 := mem_lookup1 n1 hq2
      obtain ⟨_, v', hv', hrv'⟩ := n3 q.1 q.2 hlq
      exact ⟨v', hv', q.1, hrv'⟩
    · rintro ⟨v', hv', c, hrv'⟩
      cases hacc : lookup1 ab (versos.foldl addVerse []) with
      | none => exact absurd hrv' (hnone ab hacc v' hv' c)
      | some caps =>
        have hpmem := lookup1_mem hacc
        refine ⟨⟨ab, (List.insertionSort (fun a b : Int × List String => a.1 ≤ b.1) caps).map
          Prod.snd⟩, ?_, rfl⟩
        unfold converter_hebraico
        simp only [List.mem_map]
        exact ⟨(ab, caps), hpmem, rfl⟩

/-- Witness for C5: the spec's example records, chapter "ב" (2) arriving
before chapter "א" (1), grouped for the book "gn". -/
theorem converter_hebraico_correct_witness :
    ∃ cs : List Int, cs.Pairwise (· < ·) ∧
      (∀ c, c ∈ cs ↔ ∃ v ∈ exVersos,
        rkey v = some ((⟨"gn", [["v1"], ["v2"]]⟩ : Livro).abrev, c)) ∧
      (⟨"gn", [["v1"], ["v2"]]⟩ : Livro).chapters =
        cs.map (versesOf exVersos (⟨"gn", [["v1"], ["v2"]]⟩ : Livro).abrev) :=
  (converter_hebraico_correct exVersos).1 ⟨"gn", [["v1"], ["v2"]]⟩ (by decide)
